import Mathlib

/-!
Shallow embedding of the scheduling / synchronization core of the Rcore
teaching kernel (src/os/src/syscall/sync.rs, src/os/src/syscall/process.rs,
src/os/src/task/manager.rs, src/os/src/task/processor.rs), together with
theorems settling the frozen claims about it.

Rust `usize` values are modelled as `Nat`; a subtraction that would
underflow, an out-of-bounds `Vec` index, and `Option::unwrap` on `None`
are kernel panics, modelled by the `Panic` error type through `Except`.
Additions are modelled as plain `Nat` addition (the counts involved are
tiny relative to 2^64, and no claim concerns increment overflow); the
stride accumulator, which the spec flags for wraparound, is reduced
`% 2^64` explicitly.
-/

namespace Rcore

/-- The kinds of kernel panics the embedded operations can hit. -/
inductive Panic where
  | indexOutOfBounds
  | unwrapNone
  | underflow
  deriving DecidableEq, Repr

/-- Rust `v[i]` on a `Vec`: the element, or an index-out-of-bounds panic. -/
def getE (l : List α) (i : Nat) : Except Panic α :=
  match l.get? i with
  | some a => .ok a
  | none => .error .indexOutOfBounds

/-- Rust `Option::unwrap`. -/
def unwrapE (o : Option α) : Except Panic α :=
  match o with
  | some a => .ok a
  | none => .error .unwrapNone

/-- Rust `v[i] = a` on a `Vec`: in-place update, or an index panic. -/
def setE (l : List α) (i : Nat) (a : α) : Except Panic (List α) :=
  if i < l.length then .ok (l.set i a) else .error .indexOutOfBounds

/-- Read `m[i][j]` from a matrix stored as a list of rows. -/
def get2E (m : List (List Nat)) (i j : Nat) : Except Panic Nat := do
  let row ← getE m i
  getE row j

/-- Write `m[i][j] = v`. -/
def set2E (m : List (List Nat)) (i j : Nat) (v : Nat) :
    Except Panic (List (List Nat)) := do
  let row ← getE m i
  let row2 ← setE row j v
  setE m i row2

/-- Rust `m[i][j] += 1`. -/
def inc2E (m : List (List Nat)) (i j : Nat) : Except Panic (List (List Nat)) := do
  let v ← get2E m i j
  set2E m i j (v + 1)

/-- Rust `m[i][j] -= 1` on `usize` entries: underflow at 0 is a fault. -/
def dec2E (m : List (List Nat)) (i j : Nat) : Except Panic (List (List Nat)) := do
  let v ← get2E m i j
  if v = 0 then .error .underflow else set2E m i j (v - 1)

/-- Rust `v[i] += 1`. -/
def incE (l : List Nat) (i : Nat) : Except Panic (List Nat) := do
  let v ← getE l i
  setE l i (v + 1)

/-- Rust `v[i] -= 1` on `usize` entries. -/
def decE (l : List Nat) (i : Nat) : Except Panic (List Nat) := do
  let v ← getE l i
  if v = 0 then .error .underflow else setE l i (v - 1)

/-- Rust `Vec::insert(i, a)`: shift everything from position `i` right. -/
def insertAt : List Nat → Nat → Nat → List Nat
  | l, 0, a => a :: l
  | [], _ + 1, a => [a]
  | x :: l, i + 1, a => x :: insertAt l i a

/--
Per-process bookkeeping for one resource class (mutexes or semaphores):
the slot table (`mutex_list` / `semaphore_list`, each slot `Option`al),
the ledger vectors `available`, `allocation`, `need`, and the
`is_enable_deadlock_detect` flag.  The two classes have identical shape
and, in the source, token-for-token identical ledger code, so a single
state type serves both.
-/
structure SyncState where
  list : List (Option Unit)
  available : List Nat
  allocation : List (List Nat)
  need : List (List Nat)
  detect : Bool
  deriving DecidableEq, Repr

/-- `iter().enumerate().find(|(_, item)| item.is_none())`: lowest free slot. -/
def findFreeSlot : List (Option Unit) → Option Nat
  | [] => none
  | none :: _ => some 0
  | some _ :: rest => (findFreeSlot rest).map (· + 1)

/--
`sys_mutex_create` / `sys_semaphore_create` (src/os/src/syscall/sync.rs
lines 18-54 and 128-160), with `total` the new resource's instance count
(1 for a mutex, `res_count` for a semaphore).  On slot reuse the source
calls `Vec::insert` on `available` and on every `allocation`/`need` row;
on no free slot it pushes.  Returns the id the syscall returns.
-/
def createOp (total : Nat) (s : SyncState) : Int × SyncState :=
  match findFreeSlot s.list with
  | some id =>
      (Int.ofNat id,
       { list := s.list.set id (some ()),
         available := insertAt s.available id total,
         allocation := s.allocation.map (fun row => insertAt row id 0),
         need := s.need.map (fun row => insertAt row id 0),
         detect := s.detect })
  | none =>
      (Int.ofNat s.list.length,
       { list := s.list ++ [some ()],
         available := s.available ++ [total],
         allocation := s.allocation.map (fun row => row ++ [0]),
         need := s.need.map (fun row => row ++ [0]),
         detect := s.detect })

/--
Inner `for j in 0..mnum` of the safety check: `is_executable` starts true
and is cleared whenever `work[j] < need[i][j]`; the loop always scans all
`j` (no early exit), so later out-of-bounds reads still happen.
`left` is the number of indices still to visit, `j` the current index.
-/
def checkExec (work row : List Nat) : Nat → Nat → Bool → Except Panic Bool
  | 0, _, acc => .ok acc
  | left + 1, j, acc => do
      let wj ← getE work j
      let rj ← getE row j
      checkExec work row left (j + 1) (if wj < rj then false else acc)

/-- `for j in 0..mnum { work[j] += allocation[i][j] }`. -/
def addWork (arow : List Nat) : Nat → Nat → List Nat → Except Panic (List Nat)
  | 0, _, work => .ok work
  | left + 1, j, work => do
      let wj ← getE work j
      let aj ← getE arow j
      let work2 ← setE work j (wj + aj)
      addWork arow left (j + 1) work2

/--
One `for i in 0..tnum` pass of the safety check.  `cnt` counts the indices
that did not newly finish this pass (the source's `continue` skips
`cnt += 1` exactly when a thread is newly finished).
-/
def bankerIter (need alloc : List (List Nat)) (mnum : Nat) :
    Nat → Nat → List Nat → List Bool → Nat →
    Except Panic (List Nat × List Bool × Nat)
  | _, 0, work, finish, cnt => .ok (work, finish, cnt)
  | i, left + 1, work, finish, cnt => do
      let fi ← getE finish i
      if fi = false then do
        let row ← getE need i
        let ex ← checkExec work row mnum 0 true
        if ex = true then do
          let arow ← getE alloc i
          let work2 ← addWork arow mnum 0 work
          let finish2 ← setE finish i true
          bankerIter need alloc mnum (i + 1) left work2 finish2 cnt
        else
          bankerIter need alloc mnum (i + 1) left work finish (cnt + 1)
      else
        bankerIter need alloc mnum (i + 1) left work finish (cnt + 1)

/--
The `while cnt != tnum` loop.  Each pass that continues has newly finished
at least one thread, so `tnum + 1` passes always suffice; `fuel` makes the
recursion structural and is started at `tnum + 1` by `bankerCheck`.
-/
def bankerLoop (need alloc : List (List Nat)) (tnum mnum : Nat) :
    Nat → List Nat → List Bool → Except Panic (List Bool)
  | 0, _, finish => .ok finish
  | fuel + 1, work, finish => do
      let r ← bankerIter need alloc mnum 0 tnum work finish 0
      if r.2.2 = tnum then .ok r.2.1
      else bankerLoop need alloc tnum mnum fuel r.1 r.2.1

/--
The whole safety check of `sys_mutex_lock` / `sys_semaphore_down`:
`work` is a clone of `available`, `finish = vec![false; tnum]`, then the
`while cnt != tnum` loop (entered only when `0 != tnum`); the result is
the final `finish` vector.  NOTE: the source sets `tnum` from
`mutex_list.len()` (resp. `semaphore_list.len()`), the resource count,
not from the process's thread count; the embedding keeps that.
-/
def bankerCheck (need alloc : List (List Nat)) (avail : List Nat)
    (tnum mnum : Nat) : Except Panic (List Bool) :=
  if tnum = 0 then .ok (List.replicate tnum false)
  else bankerLoop need alloc tnum mnum (tnum + 1) avail (List.replicate tnum false)

/--
Ledger part of `sys_mutex_lock` / `sys_semaphore_down`
(src/os/src/syscall/sync.rs lines 57-107 and 181-230); the two functions
are token-for-token identical on the ledger, so one definition serves
both.  `tid` is the caller (`sys_gettid`), `rid` the resource id.
Returns the syscall's result, a flag that is `true` exactly when control
goes on to the primitive's blocking `lock()` / `down()` call, and the
ledger state at that point.  NOTE (kept from the source): `tnum`, the
Banker `finish` length, is `mutex_list.len()` (resp.
`semaphore_list.len()`), not the thread count.
-/
def acquireOp (tid rid : Nat) (s : SyncState) :
    Except Panic (Int × Bool × SyncState) := do
  let slot ← getE s.list rid
  let _u ← unwrapE slot
  let tnum := s.list.length
  let mnum := s.available.length
  let a ← getE s.available rid
  if a = 0 then do
    let need1 ← inc2E s.need tid rid
    if s.detect = true then do
      let finish ← bankerCheck need1 s.allocation s.available tnum mnum
      if finish.contains false then do
        let need2 ← dec2E need1 tid rid
        pure (-0xdead, false, { s with need := need2 })
      else pure (0, true, { s with need := need1 })
    else pure (0, true, { s with need := need1 })
  else do
    let av2 ← decE s.available rid
    let al2 ← inc2E s.allocation tid rid
    pure (0, true, { s with available := av2, allocation := al2 })

/--
Ledger part of `sys_mutex_unlock` / `sys_semaphore_up`
(src/os/src/syscall/sync.rs lines 109-126 and 162-178), again identical
in the source for the two classes.  `waking` is what the primitive's
`get_waking_tid()` reports: `some w` for a woken waiter `w`, `none` for
the source's `-1`.  The primitive itself (crate::sync) is outside the
given sources, so its report is a parameter here.
-/
def releaseOp (tid rid : Nat) (waking : Option Nat) (s : SyncState) :
    Except Panic (Int × SyncState) := do
  let slot ← getE s.list rid
  let _u ← unwrapE slot
  let av1 ← incE s.available rid
  let al1 ← dec2E s.allocation tid rid
  match waking with
  | some w => do
      let av2 ← decE av1 rid
      let al2 ← inc2E al1 w rid
      let nd2 ← dec2E s.need w rid
      pure (0, { s with available := av2, allocation := al2, need := nd2 })
  | none => pure (0, { s with available := av1, allocation := al1 })

/-- `sys_mutex_create(blocking)` ledger effect: a mutex has one instance. -/
def sys_mutex_create (s : SyncState) : Int × SyncState := createOp 1 s

/-- `sys_semaphore_create(res_count)` ledger effect. -/
def sys_semaphore_create (resCount : Nat) (s : SyncState) : Int × SyncState :=
  createOp resCount s

/-- `sys_mutex_lock(mutex_id)` ledger effect for caller `tid`. -/
def sys_mutex_lock (tid rid : Nat) (s : SyncState) :
    Except Panic (Int × Bool × SyncState) := acquireOp tid rid s

/-- `sys_semaphore_down(sem_id)` ledger effect for caller `tid`. -/
def sys_semaphore_down (tid rid : Nat) (s : SyncState) :
    Except Panic (Int × Bool × SyncState) := acquireOp tid rid s

/-- `sys_mutex_unlock(mutex_id)` ledger effect for caller `tid`. -/
def sys_mutex_unlock (tid rid : Nat) (waking : Option Nat) (s : SyncState) :
    Except Panic (Int × SyncState) := releaseOp tid rid waking s

/-- `sys_semaphore_up(sem_id)` ledger effect for caller `tid`. -/
def sys_semaphore_up (tid rid : Nat) (waking : Option Nat) (s : SyncState) :
    Except Panic (Int × SyncState) := releaseOp tid rid waking s

/--
`sys_condvar_signal(condvar_id)` (src/os/src/syscall/sync.rs lines
253-260): clones `condvar_list[condvar_id].as_ref().unwrap()` then
signals the primitive; only the indexing/unwrap is ledger-relevant.
-/
def sys_condvar_signal (cid : Nat) (condvarList : List (Option Unit)) :
    Except Panic Int := do
  let slot ← getE condvarList cid
  let _u ← unwrapE slot
  pure 0

/--
`sys_condvar_wait(condvar_id, mutex_id)` (src/os/src/syscall/sync.rs
lines 262-270): clones both handles with index + unwrap, then waits.
-/
def sys_condvar_wait (cid mid : Nat) (condvarList mutexList : List (Option Unit)) :
    Except Panic Int := do
  let cslot ← getE condvarList cid
  let _u ← unwrapE cslot
  let mslot ← getE mutexList mid
  let _v ← unwrapE mslot
  pure 0

/-! ##  Scheduler: TaskManager (src/os/src/task/manager.rs)  -/

/-- `usize::MAX`, the `0xffff_ffff_ffff_ffff` the scan starts from. -/
def USIZE_MAX : Nat := 0xffffffffffffffff

/--
The fields of a `TaskControlBlock` the scheduler reads: `task_stride`
and `task_priority`, plus an identity so tasks can be told apart.
-/
structure TCB where
  id : Nat
  stride : Nat
  priority : Nat
  deriving DecidableEq, Repr

/--
Modelled from the spec: `TaskControlBlockInner::update_stride` lives in
src/os/src/task/task.rs, which is not among the given sources.  Per the
spec, each unit has a derived `pass = BIG_STRIDE / priority` and
selection adds the pass to the stride; the stride is a fixed-width
unsigned counter, hence the explicit reduction modulo `2^64`.
`B` stands for the `BIG_STRIDE` constant.
-/
def update_stride (B : Nat) (t : TCB) : TCB :=
  { t with stride := (t.stride + B / t.priority) % 2 ^ 64 }

/--
The selection scan of `TaskManager::fetch` (src/os/src/task/manager.rs
lines 31-41): `min_stride` starts at `usize::MAX`, `res` at 0, and every
task with `task_stride < min_stride` becomes the new candidate.  `idx`
is the position of the head of the remaining list.
-/
def fetchScanAux : List TCB → Nat → Nat → Nat → Nat
  | [], _, _, res => res
  | t :: rest, idx, minStride, res =>
      if t.stride < minStride then fetchScanAux rest (idx + 1) t.stride idx
      else fetchScanAux rest (idx + 1) minStride res

/-- The selection scan with its initial accumulators (`min_stride =
usize::MAX`, `res = 0`), computing the `res` that `fetch` uses. -/
def fetchScan (q : List TCB) : Nat := fetchScanAux q 0 USIZE_MAX 0

/--
`TaskManager::fetch` (src/os/src/task/manager.rs lines 30-44): scan for
the index `res`, call `update_stride` on `ready_queue[res]` in place
(an out-of-bounds index is a panic — the source indexes unconditionally,
even on an empty queue), then `remove(res)` and return the task.
-/
def fetch (B : Nat) (q : List TCB) : Except Panic (TCB × List TCB) :=
  let res := fetchScan q
  match q.get? res with
  | some t => .ok (update_stride B t, ((q.set res (update_stride B t)).eraseIdx res))
  | none => .error .indexOutOfBounds

/-- `TaskManager::add`: push onto the back of the ready queue. -/
def addTask (q : List TCB) (t : TCB) : List TCB := q ++ [t]

/-! ##  sys_waitpid (src/os/src/syscall/process.rs lines 77-109)  -/

/-- The fields of a child process block `sys_waitpid` reads. -/
structure ChildProc where
  pid : Nat
  zombie : Bool
  exit_code : Int
  deriving DecidableEq, Repr

/--
The matcher `pid == -1 || pid as usize == p.getpid()`; the `as usize`
cast reinterprets the two's-complement bits, i.e. reduces modulo `2^64`.
-/
def pidMatches (pid : Int) (c : ChildProc) : Bool :=
  pid == -1 || (pid.emod (2 ^ 64)).toNat == c.pid

/--
`children.iter().enumerate().find(|(_, p)| p.is_zombie() && (pid == -1 ||
pid as usize == p.getpid()))`: first index (with its element) of a
matching zombie child.
-/
def findZombie (pid : Int) : List ChildProc → Nat → Option (Nat × ChildProc)
  | [], _ => none
  | c :: rest, i =>
      if c.zombie && pidMatches pid c then some (i, c)
      else findZombie pid rest (i + 1)

/--
`sys_waitpid(pid, exit_code_ptr)` over the caller's `children` list.
Returns the syscall result, the children list afterwards, and the value
written through `exit_code_ptr` (`none` when nothing is written).
-/
def sys_waitpid (pid : Int) (children : List ChildProc) :
    Int × List ChildProc × Option Int :=
  if !(children.any (fun p => pidMatches pid p)) then (-1, children, none)
  else
    match findZombie pid children 0 with
    | some (idx, c) => (Int.ofNat c.pid, children.eraseIdx idx, some c.exit_code)
    | none => (-2, children, none)

/-! ##  Derived notions used by the claims  -/

/-- `m[i][j]` read defensively (0 outside the matrix), for stating frames. -/
def entry (m : List (List Nat)) (i j : Nat) : Nat := (m.getD i []).getD j 0

/-- Column sum `Σ_t allocation[t][r]`. -/
def colSum (alloc : List (List Nat)) (r : Nat) : Nat :=
  (alloc.map (fun row => row.getD r 0)).sum

/--
The safety-relevant ledger invariant, relative to the ghost vector
`total` of per-resource instance counts: `available` is as long as
`total`, the slot table no longer than `available`, every allocation row
as long as `available`, and every column satisfies
`available[r] + Σ_t allocation[t][r] = total[r]`.
-/
def ledgerInv (total : List Nat) (s : SyncState) : Prop :=
  total.length = s.available.length ∧
  s.list.length ≤ s.available.length ∧
  (∀ row ∈ s.allocation, row.length = s.available.length) ∧
  ∀ r < s.available.length, s.available.getD r 0 + colSum s.allocation r = total.getD r 0

instance (total : List Nat) (s : SyncState) : Decidable (ledgerInv total s) := by
  unfold ledgerInv; infer_instance

/-- Ghost update of the instance-count vector mirroring a `create`. -/
def totalCreate (n : Nat) (s : SyncState) (total : List Nat) : List Nat :=
  match findFreeSlot s.list with
  | some id => insertAt total id n
  | none => total ++ [n]

/-- An invalid resource handle: id out of bounds, or an empty slot. -/
def badSlot (l : List (Option Unit)) (i : Nat) : Prop :=
  l.length ≤ i ∨ l.getD i (some ()) = none

/-- Default used only to state `getD` facts about task lists. -/
def dTCB : TCB := ⟨0, 0, 0⟩

/-- The 2-thread, 2-mutex circular-wait state used as concrete witness:
thread 0 holds mutex 0, thread 1 holds mutex 1 and needs mutex 0. -/
def sDeadlock : SyncState :=
  ⟨[some (), some ()], [0, 0], [[1, 0], [0, 1]], [[0, 0], [1, 0]], true⟩

/-- Concrete pre-state for the C6 witness: thread 0 holds the mutex,
thread 1 is recorded as needing it. -/
def sRelease : SyncState := ⟨[some ()], [0], [[1], [0]], [[0], [1]], false⟩

/-- Default used only to state `getD` facts about children lists. -/
def dChild : ChildProc := ⟨0, false, 0⟩

/-! ##  Claim theorems: the closed (counter)examples  -/

/--
C1: false of the code (code bug).  The safety check is supposed to run
Banker's algorithm with one `Finish` entry per current thread, but the
source sets `tnum` from `mutex_list.len()` (resp.
`semaphore_list.len()`), the resource count.  Concretely: a process with
ONE thread (one `allocation`/`need` row) and TWO mutexes, deadlock
detection enabled, `available[0] = 0`: the loop iterates `i = 0, 1` and
the access `mutex_need[1][..]` indexes past the single thread row, a
kernel panic instead of the claimed per-thread Banker pass (which would
return the `-0xDEAD` sentinel here).
-/
theorem mutex_lock_banker_scans_resource_count :
    sys_mutex_lock 0 0 ⟨[some (), some ()], [0, 1], [[1, 0]], [[0, 0]], true⟩ =
      .error .indexOutOfBounds := by rfl

/--
C5: false of the code (code bug).  On an empty ready queue the selection
scan leaves `res = 0` and `fetch` indexes `ready_queue[0]`, a panic;
`fetch` never returns the empty result its `Option` type (and its caller
`run_tasks`, which matches `if let Some(task)`) promises.
-/
theorem fetch_empty_queue_panics :
    fetch 65536 [] = .error .indexOutOfBounds := by rfl

/--
C7: false of the code (code bug).  On slot reuse the source calls
`Vec::insert` on `available` and on every `allocation`/`need` row
instead of overwriting the freed column, so each vector GROWS by one
while the slot table keeps its length: from the rectangular state
`mutex_list = [None]`, `available = [1]`, `allocation = [[0]]`,
`need = [[0]]`, `sys_mutex_create` returns id 0 but leaves `available`
of length 2 against a slot table of length 1 (ragged ledger).
`sys_semaphore_create` has the same code, shown with `res_count = 3`.
-/
theorem create_reuse_breaks_rectangularity :
    sys_mutex_create ⟨[none], [1], [[0]], [[0]], false⟩ =
      (0, ⟨[some ()], [1, 1], [[0, 0]], [[0, 0]], false⟩) ∧
    (sys_mutex_create ⟨[none], [1], [[0]], [[0]], false⟩).2.available.length = 2 ∧
    (sys_mutex_create ⟨[none], [1], [[0]], [[0]], false⟩).2.list.length = 1 ∧
    sys_semaphore_create 3 ⟨[none], [2], [[1]], [[0]], false⟩ =
      (0, ⟨[some ()], [3, 2], [[0, 1]], [[0, 0]], false⟩) ∧
    (sys_semaphore_create 3 ⟨[none], [2], [[1]], [[0]], false⟩).2.available.length = 2 ∧
    (sys_semaphore_create 3 ⟨[none], [2], [[1]], [[0]], false⟩).2.list.length = 1 := by
  refine ⟨rfl, rfl, rfl, rfl, rfl, rfl⟩

/--
C8, counterexample: the claim promises a checked, recoverable error for
an invalid resource id, but `sys_mutex_lock(0)` on a process whose
`mutex_list` is empty hits the unchecked index `mutex_list[0]` (kernel
panic), and with a table `[None]` the `as_ref().unwrap()` panics — the
call never returns an error value to the caller.
-/
theorem invalid_handle_panics_cx :
    sys_mutex_lock 0 0 ⟨[], [], [], [], false⟩ = .error .indexOutOfBounds ∧
    sys_mutex_lock 0 0 ⟨[none], [1], [[0]], [[0]], false⟩ = .error .unwrapNone := by
  exact ⟨rfl, rfl⟩

/-! ##  Basic lemmas about the panic-checked primitives  -/

theorem bindE_ok (a : α) (f : α → Except Panic β) :
    (Except.ok a >>= f : Except Panic β) = f a := rfl

theorem bindE_err (p : Panic) (f : α → Except Panic β) :
    (Except.error p >>= f : Except Panic β) = .error p := rfl

theorem pureE (a : α) : (pure a : Except Panic α) = .ok a := rfl

theorem getE_ok {l : List α} {i : Nat} {a : α} :
    getE l i = .ok a ↔ l.get? i = some a := by
  unfold getE; cases l.get? i <;> simp

theorem unwrapE_ok {o : Option α} {a : α} : unwrapE o = .ok a ↔ o = some a := by
  unfold unwrapE; cases o <;> simp

theorem setE_ok {l : List α} {i : Nat} {a : α} {l2 : List α} :
    setE l i a = .ok l2 ↔ i < l.length ∧ l2 = l.set i a := by
  unfold setE; split <;> simp_all [eq_comm]

theorem get?_some_iff {l : List α} {i : Nat} {a : α} :
    l.get? i = some a ↔ ∃ h : i < l.length, l[i] = a := by
  rw [List.get?_eq_getElem?]; exact List.getElem?_eq_some

theorem get?_some_lt {l : List α} {i : Nat} {a : α} (h : l.get? i = some a) :
    i < l.length := (get?_some_iff.mp h).1

theorem set_get?_self {l : List α} {i : Nat} {a : α} (h : l.get? i = some a) :
    l.set i a = l := by
  obtain ⟨hlt, rfl⟩ := get?_some_iff.mp h
  apply List.ext_getElem <;> simp [List.getElem_set]
  intro k h1 h2
  rintro rfl; rfl

theorem get2E_ok {m : List (List Nat)} {i j v} :
    get2E m i j = .ok v ↔ ∃ row, m.get? i = some row ∧ row.get? j = some v := by
  unfold get2E
  constructor
  · intro h
    cases hg : getE (α := List Nat) m i with
    | error p => rw [hg, bindE_err] at h; cases h
    | ok row =>
      rw [hg, bindE_ok] at h
      exact ⟨row, getE_ok.mp hg, getE_ok.mp h⟩
  · rintro ⟨row, h1, h2⟩
    rw [getE_ok.mpr h1, bindE_ok]
    exact getE_ok.mpr h2

theorem set2E_ok {m : List (List Nat)} {i j v m2} :
    set2E m i j v = .ok m2 ↔
      ∃ row, m.get? i = some row ∧ j < row.length ∧ m2 = m.set i (row.set j v) := by
  unfold set2E
  constructor
  · intro h
    cases hg : getE (α := List Nat) m i with
    | error p => rw [hg, bindE_err] at h; cases h
    | ok row =>
      rw [hg, bindE_ok] at h
      cases hs : setE row j v with
      | error p => rw [hs, bindE_err] at h; cases h
      | ok row2 =>
        rw [hs, bindE_ok] at h
        obtain ⟨hj, rfl⟩ := setE_ok.mp hs
        obtain ⟨hi, h2⟩ := setE_ok.mp h
        exact ⟨row, getE_ok.mp hg, hj, h2⟩
  · rintro ⟨row, h1, hj, rfl⟩
    have hs1 : setE row j v = .ok (row.set j v) := setE_ok.mpr ⟨hj, rfl⟩
    rw [getE_ok.mpr h1, bindE_ok, hs1, bindE_ok]
    exact (setE_ok).mpr ⟨get?_some_lt h1, rfl⟩

theorem inc2E_ok {m : List (List Nat)} {i j m2} :
    inc2E m i j = .ok m2 ↔
      ∃ row v, m.get? i = some row ∧ row.get? j = some v ∧
        m2 = m.set i (row.set j (v + 1)) := by
  unfold inc2E
  constructor
  · intro h
    cases hg : get2E m i j with
    | error p => rw [hg, bindE_err] at h; cases h
    | ok v =>
      rw [hg, bindE_ok] at h
      obtain ⟨row, h1, h2⟩ := get2E_ok.mp hg
      obtain ⟨row', h1', hj', rfl⟩ := set2E_ok.mp h
      rw [h1] at h1'; cases h1'
      exact ⟨row, v, h1, h2, rfl⟩
  · rintro ⟨row, v, h1, h2, rfl⟩
    rw [get2E_ok.mpr ⟨row, h1, h2⟩, bindE_ok]
    exact set2E_ok.mpr ⟨row, h1, get?_some_lt h2, rfl⟩

theorem dec2E_ok {m : List (List Nat)} {i j m2} :
    dec2E m i j = .ok m2 ↔
      ∃ row v, m.get? i = some row ∧ row.get? j = some v ∧ v ≠ 0 ∧
        m2 = m.set i (row.set j (v - 1)) := by
  unfold dec2E
  constructor
  · intro h
    cases hg : get2E m i j with
    | error p => rw [hg, bindE_err] at h; cases h
    | ok v =>
      rw [hg, bindE_ok] at h
      obtain ⟨row, h1, h2⟩ := get2E_ok.mp hg
      by_cases hv : v = 0
      · rw [if_pos hv] at h; cases h
      · rw [if_neg hv] at h
        obtain ⟨row', h1', hj', rfl⟩ := set2E_ok.mp h
        rw [h1] at h1'; cases h1'
        exact ⟨row, v, h1, h2, hv, rfl⟩
  · rintro ⟨row, v, h1, h2, hv, rfl⟩
    rw [get2E_ok.mpr ⟨row, h1, h2⟩, bindE_ok, if_neg hv]
    exact set2E_ok.mpr ⟨row, h1, get?_some_lt h2, rfl⟩

theorem incE_ok {l : List Nat} {i l2} :
    incE l i = .ok l2 ↔ ∃ v, l.get? i = some v ∧ l2 = l.set i (v + 1) := by
  unfold incE
  constructor
  · intro h
    cases hg : getE (α := Nat) l i with
    | error p => rw [hg, bindE_err] at h; cases h
    | ok v =>
      rw [hg, bindE_ok] at h
      obtain ⟨_, rfl⟩ := setE_ok.mp h
      exact ⟨v, getE_ok.mp hg, rfl⟩
  · rintro ⟨v, h1, rfl⟩
    rw [getE_ok.mpr h1, bindE_ok]
    exact setE_ok.mpr ⟨get?_some_lt h1, rfl⟩

theorem decE_ok {l : List Nat} {i l2} :
    decE l i = .ok l2 ↔ ∃ v, l.get? i = some v ∧ v ≠ 0 ∧ l2 = l.set i (v - 1) := by
  unfold decE
  constructor
  · intro h
    cases hg : getE (α := Nat) l i with
    | error p => rw [hg, bindE_err] at h; cases h
    | ok v =>
      rw [hg, bindE_ok] at h
      by_cases hv : v = 0
      · rw [if_pos hv] at h; cases h
      · rw [if_neg hv] at h
        obtain ⟨_, rfl⟩ := setE_ok.mp h
        exact ⟨v, getE_ok.mp hg, hv, rfl⟩
  · rintro ⟨v, h1, hv, rfl⟩
    rw [getE_ok.mpr h1, bindE_ok, if_neg hv]
    exact setE_ok.mpr ⟨get?_some_lt h1, rfl⟩

theorem get?_set_self {l : List α} {i : Nat} {a : α} (h : i < l.length) :
    (l.set i a).get? i = some a := List.get?_set_eq_of_lt a h

theorem get?_set_of_ne {l : List α} {i j : Nat} {a : α} (h : i ≠ j) :
    (l.set i a).get? j = l.get? j := List.get?_set_ne a l h

theorem getD_of_get? {l : List α} {i : Nat} {v : α} (d : α) (h : l.get? i = some v) :
    l.getD i d = v := by rw [List.getD_eq_getD_get?, h]; rfl

theorem getD_set_self {l : List α} {i : Nat} {v : α} (d : α) (h : i < l.length) :
    (l.set i v).getD i d = v := getD_of_get? d (get?_set_self h)

theorem getD_set_of_ne {l : List α} {i j : Nat} {v : α} (d : α) (h : i ≠ j) :
    (l.set i v).getD j d = l.getD j d := by
  rw [List.getD_eq_getD_get?, List.getD_eq_getD_get?, get?_set_of_ne h]

/-- Incrementing then decrementing the same matrix cell restores it. -/
theorem inc2E_dec2E_roundtrip {m : List (List Nat)} {i j : Nat}
    {m2 : List (List Nat)} (h : inc2E m i j = .ok m2) :
    dec2E m2 i j = .ok m := by
  obtain ⟨row, v, h1, h2, rfl⟩ := inc2E_ok.mp h
  apply dec2E_ok.mpr
  refine ⟨row.set j (v + 1), v + 1, get?_set_self (get?_some_lt h1),
    get?_set_self (get?_some_lt h2), by omega, ?_⟩
  rw [List.set_set, Nat.add_sub_cancel, List.set_set, set_get?_self h2,
    set_get?_self h1]

/-- Every `Except` is an `.ok` or an `.error`; split without rewriting. -/
theorem exceptCases (e : Except Panic α) :
    (∃ p, e = .error p) ∨ ∃ a, e = .ok a := by
  cases e with
  | error p => exact .inl ⟨p, rfl⟩
  | ok a => exact .inr ⟨a, rfl⟩

/--
Everything that holds at an `.ok` return of the acquire path
(`sys_mutex_lock` / `sys_semaphore_down`): the reads that succeeded and
the exact branch taken, with the result, the continue-to-primitive flag
and the final state of each branch.  In the would-deadlock branch the
tentative `need` increment has been undone, so the state is exactly the
initial one.
-/
theorem acquireOp_ok_elim {tid rid : Nat} {s : SyncState} {r : Int} {b : Bool}
    {s' : SyncState} (h : acquireOp tid rid s = .ok (r, b, s')) :
    s.list.get? rid = some (some ()) ∧
    ∃ a, s.available.get? rid = some a ∧
      ((a = 0 ∧ ∃ rowN vN, s.need.get? tid = some rowN ∧ rowN.get? rid = some vN ∧
          ((s.detect = true ∧
            ∃ finish, bankerCheck (s.need.set tid (rowN.set rid (vN + 1)))
                s.allocation s.available s.list.length s.available.length =
                  .ok finish ∧
              ((finish.contains false = true ∧ r = -0xdead ∧ b = false ∧ s' = s) ∨
               (finish.contains false = false ∧ r = 0 ∧ b = true ∧
                  s' = { s with need := s.need.set tid (rowN.set rid (vN + 1)) }))) ∨
           (s.detect = false ∧ r = 0 ∧ b = true ∧
              s' = { s with need := s.need.set tid (rowN.set rid (vN + 1)) }))) ∨
       (a ≠ 0 ∧ r = 0 ∧ b = true ∧
        ∃ row v, s.allocation.get? tid = some row ∧ row.get? rid = some v ∧
          s' = { s with available := s.available.set rid (a - 1),
                        allocation := s.allocation.set tid (row.set rid (v + 1)) })) := by
  unfold acquireOp at h
  rcases exceptCases (getE (α := Option Unit) s.list rid) with ⟨p, hg⟩ | ⟨slot, hg⟩
  · rw [hg, bindE_err] at h; cases h
  rw [hg, bindE_ok] at h
  rcases exceptCases (unwrapE slot) with ⟨p, hu⟩ | ⟨u, hu⟩
  · rw [hu, bindE_err] at h; cases h
  rw [hu, bindE_ok] at h
  have hslot : s.list.get? rid = some (some ()) := by
    have h2 := unwrapE_ok.mp hu
    cases u
    exact h2 ▸ getE_ok.mp hg
  rcases exceptCases (getE (α := Nat) s.available rid) with ⟨p, ha⟩ | ⟨a, ha⟩
  · rw [ha, bindE_err] at h; cases h
  rw [ha, bindE_ok] at h
  refine ⟨hslot, a, getE_ok.mp ha, ?_⟩
  by_cases haz : a = 0
  · rw [if_pos haz] at h
    rcases exceptCases (inc2E s.need tid rid) with ⟨p, hn⟩ | ⟨need1, hn⟩
    · rw [hn, bindE_err] at h; cases h
    rw [hn, bindE_ok] at h
    obtain ⟨rowN, vN, hrowN, hvN, hneed1⟩ := inc2E_ok.mp hn
    refine .inl ⟨haz, rowN, vN, hrowN, hvN, ?_⟩
    by_cases hd : s.detect = true
    · rw [if_pos hd] at h
      rcases exceptCases (bankerCheck need1 s.allocation s.available
        s.list.length s.available.length) with ⟨p, hbk⟩ | ⟨finish, hbk⟩
      · rw [hbk, bindE_err] at h; cases h
      rw [hbk, bindE_ok] at h
      refine .inl ⟨hd, finish, hneed1 ▸ hbk, ?_⟩
      by_cases hf : finish.contains false = true
      · rw [if_pos hf] at h
        rcases exceptCases (dec2E need1 tid rid) with ⟨p, hn2⟩ | ⟨need2, hn2⟩
        · rw [hn2, bindE_err] at h; cases h
        rw [hn2, bindE_ok, pureE] at h
        simp only [Except.ok.injEq, Prod.mk.injEq] at h
        have hrt : need2 = s.need := by
          have := inc2E_dec2E_roundtrip hn
          rw [hn2] at this
          cases this
          rfl
        refine .inl ⟨hf, h.1.symm, h.2.1.symm, ?_⟩
        rw [← h.2.2, hrt]
      · rw [if_neg hf, pureE] at h
        simp only [Except.ok.injEq, Prod.mk.injEq] at h
        exact .inr ⟨Bool.not_eq_true _ ▸ hf, h.1.symm, h.2.1.symm,
          h.2.2.symm.trans (by rw [hneed1])⟩
    · rw [if_neg hd, pureE] at h
      simp only [Except.ok.injEq, Prod.mk.injEq] at h
      exact .inr ⟨Bool.not_eq_true _ ▸ hd, h.1.symm, h.2.1.symm,
        h.2.2.symm.trans (by rw [hneed1])⟩
  · rw [if_neg haz] at h
    rcases exceptCases (decE s.available rid) with ⟨p, hav⟩ | ⟨av2, hav⟩
    · rw [hav, bindE_err] at h; cases h
    rw [hav, bindE_ok] at h
    rcases exceptCases (inc2E s.allocation tid rid) with ⟨p, hal⟩ | ⟨al2, hal⟩
    · rw [hal, bindE_err] at h; cases h
    rw [hal, bindE_ok, pureE] at h
    simp only [Except.ok.injEq, Prod.mk.injEq] at h
    obtain ⟨v0, hv0, hvz, hav2⟩ := decE_ok.mp hav
    obtain ⟨row, v, hrow, hv, hal2⟩ := inc2E_ok.mp hal
    have hva : v0 = a := by
      have := getE_ok.mp ha
      rw [hv0] at this
      cases this
      rfl
    refine .inr ⟨haz, h.1.symm, h.2.1.symm, row, v, hrow, hv, ?_⟩
    rw [← h.2.2, hav2, hal2, hva]

/--
Everything that holds at an `.ok` return of the release path with no
woken thread reported (`sys_mutex_unlock` / `sys_semaphore_up` when
`get_waking_tid() == -1`).
-/
theorem releaseOp_none_ok {tid rid : Nat} {s : SyncState} {r : Int}
    {s' : SyncState} (h : releaseOp tid rid none s = .ok (r, s')) :
    r = 0 ∧ s.list.get? rid = some (some ()) ∧
    ∃ a row v, s.available.get? rid = some a ∧
      s.allocation.get? tid = some row ∧ row.get? rid = some v ∧ v ≠ 0 ∧
      s' = { s with available := s.available.set rid (a + 1),
                    allocation := s.allocation.set tid (row.set rid (v - 1)) } := by
  unfold releaseOp at h
  rcases exceptCases (getE (α := Option Unit) s.list rid) with ⟨p, hg⟩ | ⟨slot, hg⟩
  · rw [hg, bindE_err] at h; cases h
  rw [hg, bindE_ok] at h
  rcases exceptCases (unwrapE slot) with ⟨p, hu⟩ | ⟨u, hu⟩
  · rw [hu, bindE_err] at h; cases h
  rw [hu, bindE_ok] at h
  have hslot : s.list.get? rid = some (some ()) := by
    have h2 := unwrapE_ok.mp hu
    cases u
    exact h2 ▸ getE_ok.mp hg
  rcases exceptCases (incE s.available rid) with ⟨p, hav⟩ | ⟨av1, hav⟩
  · rw [hav, bindE_err] at h; cases h
  rw [hav, bindE_ok] at h
  rcases exceptCases (dec2E s.allocation tid rid) with ⟨p, hal⟩ | ⟨al1, hal⟩
  · rw [hal, bindE_err] at h; cases h
  rw [hal, bindE_ok, pureE] at h
  simp only [Except.ok.injEq, Prod.mk.injEq] at h
  obtain ⟨a, ha, hav1⟩ := incE_ok.mp hav
  obtain ⟨row, v, hrow, hv, hvz, hal1⟩ := dec2E_ok.mp hal
  exact ⟨h.1.symm, hslot, a, row, v, ha, hrow, hv, hvz,
    h.2.symm.trans (by rw [hav1, hal1])⟩

/--
Everything that holds at an `.ok` return of the release path when the
primitive reports woken thread `w`: the net effect on `available` is
nil, the caller loses one allocation unit, the woken thread gains one
and loses one `need` unit.
-/
theorem releaseOp_some_ok {tid rid w : Nat} {s : SyncState} {r : Int}
    {s' : SyncState} (h : releaseOp tid rid (some w) s = .ok (r, s')) :
    r = 0 ∧ s.list.get? rid = some (some ()) ∧
    ∃ a row v row2 v2 rowN vN, s.available.get? rid = some a ∧
      s.allocation.get? tid = some row ∧ row.get? rid = some v ∧ v ≠ 0 ∧
      (s.allocation.set tid (row.set rid (v - 1))).get? w = some row2 ∧
      row2.get? rid = some v2 ∧
      s.need.get? w = some rowN ∧ rowN.get? rid = some vN ∧ vN ≠ 0 ∧
      s' = { s with
        allocation := (s.allocation.set tid (row.set rid (v - 1))).set w
                        (row2.set rid (v2 + 1)),
        need := s.need.set w (rowN.set rid (vN - 1)) } := by
  unfold releaseOp at h
  rcases exceptCases (getE (α := Option Unit) s.list rid) with ⟨p, hg⟩ | ⟨slot, hg⟩
  · rw [hg, bindE_err] at h; cases h
  rw [hg, bindE_ok] at h
  rcases exceptCases (unwrapE slot) with ⟨p, hu⟩ | ⟨u, hu⟩
  · rw [hu, bindE_err] at h; cases h
  rw [hu, bindE_ok] at h
  have hslot : s.list.get? rid = some (some ()) := by
    have h2 := unwrapE_ok.mp hu
    cases u
    exact h2 ▸ getE_ok.mp hg
  rcases exceptCases (incE s.available rid) with ⟨p, hav⟩ | ⟨av1, hav⟩
  · rw [hav, bindE_err] at h; cases h
  rw [hav, bindE_ok] at h
  rcases exceptCases (dec2E s.allocation tid rid) with ⟨p, hal⟩ | ⟨al1, hal⟩
  · rw [hal, bindE_err] at h; cases h
  rw [hal, bindE_ok] at h
  replace h : (do
      let av2 ← decE av1 rid
      let al2 ← inc2E al1 w rid
      let nd2 ← dec2E s.need w rid
      pure ((0 : Int), { s with available := av2, allocation := al2, need := nd2 }))
      = Except.ok (r, s') := h
  rcases exceptCases (decE av1 rid) with ⟨p, hav2⟩ | ⟨av2, hav2⟩
  · rw [hav2, bindE_err] at h; cases h
  rw [hav2, bindE_ok] at h
  rcases exceptCases (inc2E al1 w rid) with ⟨p, hal2⟩ | ⟨al2, hal2⟩
  · rw [hal2, bindE_err] at h; cases h
  rw [hal2, bindE_ok] at h
  rcases exceptCases (dec2E s.need w rid) with ⟨p, hnd⟩ | ⟨nd2, hnd⟩
  · rw [hnd, bindE_err] at h; cases h
  rw [hnd, bindE_ok, pureE] at h
  simp only [Except.ok.injEq, Prod.mk.injEq] at h
  obtain ⟨a, ha, hav1⟩ := incE_ok.mp hav
  obtain ⟨row, v, hrow, hv, hvz, hal1⟩ := dec2E_ok.mp hal
  obtain ⟨row2, v2, hrow2, hv2, hal2e⟩ := inc2E_ok.mp hal2
  obtain ⟨rowN, vN, hrowN, hvN, hvNz, hnd2⟩ := dec2E_ok.mp hnd
  -- the two touches of `available` cancel: av2 = s.available
  have hcanc : av2 = s.available := by
    obtain ⟨v1, hv1, hv1z, hav2e⟩ := decE_ok.mp hav2
    have hv1a : v1 = a + 1 := by
      rw [hav1] at hv1
      rw [get?_set_self (get?_some_lt ha)] at hv1
      cases hv1
      rfl
    rw [hav2e, hav1, hv1a, Nat.add_sub_cancel, List.set_set, set_get?_self ha]
  subst hal1 hcanc
  exact ⟨h.1.symm, hslot, a, row, v, row2, v2, rowN, vN, ha, hrow, hv, hvz,
    hrow2, hv2, hrowN, hvN, hvNz,
    h.2.symm.trans (by rw [hal2e, hnd2])⟩

/-! ##  Entry-level frame lemmas  -/

theorem entry_of_get? {m : List (List Nat)} {i j v : Nat} {row : List Nat}
    (hrow : m.get? i = some row) (hv : row.get? j = some v) :
    entry m i j = v := by
  unfold entry
  rw [getD_of_get? [] hrow, getD_of_get? 0 hv]

theorem entry_set_hit {m : List (List Nat)} {i j v : Nat} {row : List Nat}
    (hrow : m.get? i = some row) (hj : j < row.length) :
    entry (m.set i (row.set j v)) i j = v := by
  unfold entry
  rw [getD_set_self [] (get?_some_lt hrow), getD_set_self 0 hj]

theorem entry_set_other {m : List (List Nat)} {i j v : Nat} {row : List Nat}
    (hrow : m.get? i = some row) {k l : Nat} (hne : ¬(k = i ∧ l = j)) :
    entry (m.set i (row.set j v)) k l = entry m k l := by
  unfold entry
  by_cases hk : k = i
  · subst hk
    have hl : l ≠ j := fun hl => hne ⟨rfl, hl⟩
    rw [getD_set_self [] (get?_some_lt hrow), getD_of_get? [] hrow,
      getD_set_of_ne 0 (fun h => hl h.symm)]
  · rw [getD_set_of_ne [] (fun h => hk h.symm)]

/-! ##  C3: would-deadlock refusals roll the ledger back  -/

/--
C3: whenever `sys_mutex_lock` (or `sys_semaphore_down`, the identical
ledger code) returns the would-deadlock sentinel `-0xDEAD`, the
tentative `need[tid][rid]` increment has been rolled back — the whole
ledger state equals the state before the call — and control returns
without ever reaching the primitive's blocking acquire (the `Bool`
component is the flag that is true exactly when `mutex.lock()` /
`sem.down()` is reached).
-/
theorem would_deadlock_rolls_back (tid rid : Nat) (s : SyncState) (r : Int)
    (b : Bool) (s' : SyncState) :
    (sys_mutex_lock tid rid s = .ok (r, b, s') → r = -0xdead →
      s' = s ∧ b = false) ∧
    (sys_semaphore_down tid rid s = .ok (r, b, s') → r = -0xdead →
      s' = s ∧ b = false) := by
  have key : acquireOp tid rid s = .ok (r, b, s') → r = -0xdead →
      s' = s ∧ b = false := by
    intro h hr
    obtain ⟨-, a, -, hbr⟩ := acquireOp_ok_elim h
    rcases hbr with ⟨-, rowN, vN, -, -, hinner⟩ | ⟨-, hr0, -⟩
    · rcases hinner with ⟨-, finish, -, hres⟩ | ⟨-, hr0, -⟩
      · rcases hres with ⟨-, -, hb, hs⟩ | ⟨-, hr0, -⟩
        · exact ⟨hs, hb⟩
        · exact absurd (hr0 ▸ hr) (by decide)
      · exact absurd (hr0 ▸ hr) (by decide)
    · exact absurd (hr0 ▸ hr) (by decide)
  exact ⟨key, key⟩

/--
C3 witness: in `sDeadlock`, thread 0 requesting mutex 1 with detection
enabled gets the sentinel, and the theorem yields the rollback facts.
-/
theorem would_deadlock_rolls_back_witness :
    sys_mutex_lock 0 1 sDeadlock = .ok (-0xdead, false, sDeadlock) ∧
    sDeadlock = sDeadlock ∧ false = false :=
  ⟨rfl, (would_deadlock_rolls_back 0 1 sDeadlock (-0xdead) false sDeadlock).1
    rfl rfl⟩

/-! ##  C6: exact ledger effect of a release  -/

/--
C6: after `sys_mutex_unlock` (and `sys_semaphore_up`, which runs the
identical ledger code — last conjunct) by `tid` on `rid`: if the
primitive reports no woken thread, `available[rid]` goes up by one and
`allocation[tid][rid]` down by one with everything else unchanged; if it
reports a woken thread `w`, `need[w][rid]` goes down by one,
`allocation[w][rid]` up by one, `allocation[tid][rid]` down by one, and
`available` is net unchanged, with every other ledger entry unchanged;
both paths return 0.
-/
theorem release_ledger_frame (tid rid w : Nat) (s : SyncState) (r : Int)
    (s' : SyncState) :
    (sys_mutex_unlock tid rid none s = .ok (r, s') →
      r = 0 ∧
      s'.available.getD rid 0 = s.available.getD rid 0 + 1 ∧
      entry s'.allocation tid rid + 1 = entry s.allocation tid rid ∧
      s'.need = s.need ∧ s'.list = s.list ∧ s'.detect = s.detect ∧
      (∀ j, j ≠ rid → s'.available.getD j 0 = s.available.getD j 0) ∧
      (∀ i j, ¬(i = tid ∧ j = rid) →
        entry s'.allocation i j = entry s.allocation i j)) ∧
    (w ≠ tid →
      sys_mutex_unlock tid rid (some w) s = .ok (r, s') →
      r = 0 ∧ s'.available = s.available ∧
      entry s'.allocation tid rid + 1 = entry s.allocation tid rid ∧
      entry s'.allocation w rid = entry s.allocation w rid + 1 ∧
      entry s'.need w rid + 1 = entry s.need w rid ∧
      s'.list = s.list ∧ s'.detect = s.detect ∧
      (∀ i j, ¬(i = tid ∧ j = rid) → ¬(i = w ∧ j = rid) →
        entry s'.allocation i j = entry s.allocation i j) ∧
      (∀ i j, ¬(i = w ∧ j = rid) → entry s'.need i j = entry s.need i j)) ∧
    (∀ wk : Option Nat, sys_semaphore_up tid rid wk s = sys_mutex_unlock tid rid wk s) := by
  refine ⟨?_, ?_, fun wk => rfl⟩
  · intro h
    obtain ⟨hr, -, a, row, v, ha, hrow, hv, hvz, hs⟩ := releaseOp_none_ok h
    subst hs hr
    refine ⟨rfl, ?_, ?_, rfl, rfl, rfl, ?_, ?_⟩
    · simp only
      rw [getD_set_self 0 (get?_some_lt ha), getD_of_get? 0 ha]
    · simp only
      rw [entry_set_hit hrow (get?_some_lt hv), entry_of_get? hrow hv]
      omega
    · intro j hj
      simp only
      rw [getD_set_of_ne 0 (fun he => hj he.symm)]
    · intro i j hij
      simp only
      rw [entry_set_other hrow hij]
  · intro hw h
    obtain ⟨hr, -, a, row, v, row2, v2, rowN, vN, ha, hrow, hv, hvz, hrow2,
      hv2, hrowN, hvN, hvNz, hs⟩ := releaseOp_some_ok h
    subst hs hr
    have hrow2' : s.allocation.get? w = some row2 := by
      rw [← hrow2, get?_set_of_ne (fun he => hw he.symm)]
    refine ⟨rfl, rfl, ?_, ?_, ?_, rfl, rfl, ?_, ?_⟩
    · simp only
      rw [entry_set_other hrow2 (fun hc => hw hc.1.symm),
        entry_set_hit hrow (get?_some_lt hv), entry_of_get? hrow hv]
      omega
    · simp only
      rw [entry_set_hit hrow2 (get?_some_lt hv2), entry_of_get? hrow2' hv2]
    · simp only
      rw [entry_set_hit hrowN (get?_some_lt hvN), entry_of_get? hrowN hvN]
      omega
    · intro i j hij hwj
      simp only
      rw [entry_set_other hrow2 hwj, entry_set_other hrow hij]
    · intro i j hwj
      simp only
      rw [entry_set_other hrowN hwj]

/--
C6 witness: in `sRelease`, thread 0 releasing the mutex with the
primitive reporting woken thread 1 shifts one unit from thread 0 and one
`need` unit of thread 1 into thread 1's allocation.
-/
theorem release_ledger_frame_witness :
    (1 : Nat) ≠ 0 ∧
    sys_mutex_unlock 0 0 (some 1) sRelease =
      .ok (0, ⟨[some ()], [0], [[0], [1]], [[0], [0]], false⟩) ∧
    entry ([[0], [1]] : List (List Nat)) 1 0 =
      entry ([[1], [0]] : List (List Nat)) 1 0 + 1 := by
  refine ⟨by decide, rfl, ?_⟩
  have h := (release_ledger_frame 0 0 1 sRelease 0
    ⟨[some ()], [0], [[0], [1]], [[0], [0]], false⟩).2.1 (by decide) rfl
  exact h.2.2.2.1

/-! ##  C10: release decrements without checking ownership  -/

theorem dec2E_underflow {m : List (List Nat)} {i j : Nat} {row : List Nat}
    (h1 : m.get? i = some row) (h2 : row.get? j = some 0) :
    dec2E m i j = .error .underflow := by
  unfold dec2E
  rw [get2E_ok.mpr ⟨row, h1, h2⟩, bindE_ok, if_pos rfl]

/--
C10: `sys_mutex_unlock` / `sys_semaphore_up` never check that the caller
holds the resource: with a valid handle they unconditionally run
`allocation[tid][rid] -= 1`, so when `allocation[tid][rid] = 0` the call
hits the underflowing `usize` subtraction (whatever the primitive would
report), and with `allocation[tid][rid] ≥ 1` the no-waiter path
completes normally.
-/
theorem release_decrement_unchecked (s : SyncState) (tid rid : Nat)
    (wk : Option Nat) (row : List Nat)
    (hl : s.list.get? rid = some (some ()))
    (hra : rid < s.available.length)
    (hrow : s.allocation.get? tid = some row) :
    (row.get? rid = some 0 →
      sys_mutex_unlock tid rid wk s = .error .underflow ∧
      sys_semaphore_up tid rid wk s = .error .underflow) ∧
    (∀ v, row.get? rid = some (v + 1) →
      ∃ s2, sys_mutex_unlock tid rid none s = .ok (0, s2)) := by
  have ha : s.available.get? rid = some (s.available.getD rid 0) := by
    rw [List.get?_eq_get hra, List.getD_eq_getElem _ _ hra]
    rfl
  constructor
  · intro hz
    have key : releaseOp tid rid wk s = .error .underflow := by
      unfold releaseOp
      rw [getE_ok.mpr hl, bindE_ok, unwrapE_ok.mpr rfl, bindE_ok,
        incE_ok.mpr ⟨_, ha, rfl⟩, bindE_ok, dec2E_underflow hrow hz, bindE_err]
    exact ⟨key, key⟩
  · intro v hv
    refine ⟨⟨s.list, s.available.set rid (s.available.getD rid 0 + 1),
      s.allocation.set tid (row.set rid (v + 1 - 1)), s.need, s.detect⟩, ?_⟩
    show releaseOp tid rid none s = _
    unfold releaseOp
    rw [getE_ok.mpr hl, bindE_ok, unwrapE_ok.mpr rfl, bindE_ok,
      incE_ok.mpr ⟨_, ha, rfl⟩, bindE_ok,
      dec2E_ok.mpr ⟨row, v + 1, hrow, hv, by omega, rfl⟩, bindE_ok, pureE]

/--
C10 witness: with one mutex, `allocation[0][0] = 0`, thread 0 calling
unlock/up hits the underflow; with `allocation[0][0] = 1` the unlock
completes.
-/
theorem release_decrement_unchecked_witness :
    (sys_mutex_unlock 0 0 none ⟨[some ()], [0], [[0]], [[0]], false⟩ =
        .error .underflow ∧
      sys_semaphore_up 0 0 none ⟨[some ()], [0], [[0]], [[0]], false⟩ =
        .error .underflow) ∧
    ∃ s2, sys_mutex_unlock 0 0 none ⟨[some ()], [0], [[1]], [[0]], false⟩ =
        .ok (0, s2) := by
  constructor
  · exact (release_decrement_unchecked ⟨[some ()], [0], [[0]], [[0]], false⟩
      0 0 none [0] rfl (by decide) rfl).1 rfl
  · exact (release_decrement_unchecked ⟨[some ()], [0], [[1]], [[0]], false⟩
      0 0 none [1] rfl (by decide) rfl).2 0 rfl

/-! ##  C2: the column-sum ledger invariant  -/

theorem colSum_cons (row : List Nat) (alloc : List (List Nat)) (r : Nat) :
    colSum (row :: alloc) r = row.getD r 0 + colSum alloc r := rfl

theorem colSum_set {alloc : List (List Nat)} {tid : Nat} {row : List Nat}
    (h : alloc.get? tid = some row) (row' : List Nat) (r : Nat) :
    colSum (alloc.set tid row') r + row.getD r 0 =
      colSum alloc r + row'.getD r 0 := by
  induction alloc generalizing tid with
  | nil => cases h
  | cons hd tl ih =>
    cases tid with
    | zero =>
      injection h with h1
      subst h1
      simp only [List.set_cons_zero, colSum_cons]
      omega
    | succ n =>
      have h' : tl.get? n = some row := h
      simp only [List.set_cons_succ, colSum_cons]
      have := ih h'
      omega

theorem length_insertAt (l : List Nat) (i a : Nat) :
    (insertAt l i a).length = l.length + 1 := by
  induction l generalizing i with
  | nil => cases i <;> rfl
  | cons x xs ih =>
    cases i with
    | zero => rfl
    | succ n => simp [insertAt, ih]

theorem getD_insertAt_lt {l : List Nat} {i r a : Nat} (hi : i ≤ l.length)
    (hr : r < i) : (insertAt l i a).getD r 0 = l.getD r 0 := by
  induction l generalizing i r with
  | nil => simp at hi; omega
  | cons x xs ih =>
    cases i with
    | zero => omega
    | succ n =>
      cases r with
      | zero => rfl
      | succ m =>
        have hi' : n ≤ xs.length := by simpa using hi
        exact ih hi' (by omega)

theorem getD_insertAt_self {l : List Nat} {i a : Nat} (hi : i ≤ l.length) :
    (insertAt l i a).getD i 0 = a := by
  induction l generalizing i with
  | nil =>
    have : i = 0 := by simpa using hi
    subst this
    rfl
  | cons x xs ih =>
    cases i with
    | zero => rfl
    | succ n => exact ih (by simpa using hi)

theorem getD_insertAt_succ {l : List Nat} {i a r : Nat} (hi : i ≤ l.length)
    (hr : i ≤ r) : (insertAt l i a).getD (r + 1) 0 = l.getD r 0 := by
  induction l generalizing i r with
  | nil =>
    have : i = 0 := by simpa using hi
    subst this
    simp [insertAt, List.getD]
  | cons x xs ih =>
    cases i with
    | zero => rfl
    | succ n =>
      cases r with
      | zero => omega
      | succ m => exact ih (by simpa using hi) (by omega)

theorem colSum_map_insertAt_lt {alloc : List (List Nat)} {i r : Nat}
    (hrows : ∀ row ∈ alloc, i ≤ row.length) (hr : r < i) :
    colSum (alloc.map (fun row => insertAt row i 0)) r = colSum alloc r := by
  induction alloc with
  | nil => rfl
  | cons hd tl ih =>
    simp only [List.map_cons, colSum_cons]
    rw [getD_insertAt_lt (hrows hd (by simp)) hr,
      ih (fun row hrow => hrows row (by simp [hrow]))]

theorem colSum_map_insertAt_self {alloc : List (List Nat)} {i : Nat}
    (hrows : ∀ row ∈ alloc, i ≤ row.length) :
    colSum (alloc.map (fun row => insertAt row i 0)) i = 0 := by
  induction alloc with
  | nil => rfl
  | cons hd tl ih =>
    simp only [List.map_cons, colSum_cons]
    rw [getD_insertAt_self (hrows hd (by simp)),
      ih (fun row hrow => hrows row (by simp [hrow]))]

theorem colSum_map_insertAt_succ {alloc : List (List Nat)} {i r : Nat}
    (hrows : ∀ row ∈ alloc, i ≤ row.length) (hr : i ≤ r) :
    colSum (alloc.map (fun row => insertAt row i 0)) (r + 1) = colSum alloc r := by
  induction alloc with
  | nil => rfl
  | cons hd tl ih =>
    simp only [List.map_cons, colSum_cons]
    rw [getD_insertAt_succ (hrows hd (by simp)) hr,
      ih (fun row hrow => hrows row (by simp [hrow]))]

theorem colSum_map_append_lt {alloc : List (List Nat)} {r : Nat}
    (hrows : ∀ row ∈ alloc, r < row.length) :
    colSum (alloc.map (fun row => row ++ [0])) r = colSum alloc r := by
  induction alloc with
  | nil => rfl
  | cons hd tl ih =>
    simp only [List.map_cons, colSum_cons]
    rw [List.getD_append _ _ _ _ (hrows hd (by simp)),
      ih (fun row hrow => hrows row (by simp [hrow]))]

theorem colSum_map_append_self {alloc : List (List Nat)} {L : Nat}
    (hrows : ∀ row ∈ alloc, row.length = L) :
    colSum (alloc.map (fun row => row ++ [0])) L = 0 := by
  induction alloc with
  | nil => rfl
  | cons hd tl ih =>
    simp only [List.map_cons, colSum_cons]
    rw [ih (fun row hrow => hrows row (by simp [hrow]))]
    have hL : hd.length = L := hrows hd (by simp)
    subst hL
    rw [List.getD_append_right _ _ _ _ (le_refl _)]
    simp

theorem findFreeSlot_lt {l : List (Option Unit)} {id : Nat}
    (h : findFreeSlot l = some id) : id < l.length := by
  induction l generalizing id with
  | nil => cases h
  | cons hd tl ih =>
    cases hd with
    | none =>
      injection h with h1
      subst h1
      simp
    | some u =>
      simp only [findFreeSlot, Option.map_eq_some'] at h
      obtain ⟨j, hj, rfl⟩ := h
      have := ih hj
      simp
      omega

theorem acquire_preserves_inv {total : List Nat} {tid rid : Nat} {s : SyncState}
    {r : Int} {b : Bool} {s2 : SyncState}
    (h : acquireOp tid rid s = .ok (r, b, s2)) (hinv : ledgerInv total s) :
    ledgerInv total s2 := by
  obtain ⟨-, a, ha, hbr⟩ := acquireOp_ok_elim h
  rcases hbr with ⟨-, rowN, vN, -, -, hinner⟩ | ⟨haz, -, -, row, v, hrow, hv, hs⟩
  · rcases hinner with ⟨-, finish, -, hres⟩ | ⟨-, -, -, hs⟩
    · rcases hres with ⟨-, -, -, hs⟩ | ⟨-, -, -, hs⟩
      · subst hs; exact hinv
      · subst hs; exact hinv
    · subst hs; exact hinv
  · subst hs
    obtain ⟨hlen, hll, hrows, hsum⟩ := hinv
    have hrid : rid < s.available.length := get?_some_lt ha
    have hrowmem : row ∈ s.allocation := List.get?_mem hrow
    have hrjlt : rid < row.length := get?_some_lt hv
    refine ⟨by simpa using hlen, by simpa using hll, ?_, ?_⟩
    · intro row2 hrow2
      simp only [List.length_set]
      rcases List.mem_or_eq_of_mem_set hrow2 with hmem | rfl
      · exact hrows row2 hmem
      · simp only [List.length_set]
        exact hrows row hrowmem
    · intro rr hrr
      simp only [List.length_set] at hrr
      have hgs := colSum_set hrow (row.set rid (v + 1)) rr
      have hvd : row.getD rid 0 = v := getD_of_get? 0 hv
      have had : s.available.getD rid 0 = a := getD_of_get? 0 ha
      have hold := hsum rr hrr
      by_cases hrq : rr = rid
      · subst hrq
        simp only
        rw [getD_set_self 0 hrid]
        rw [getD_set_self 0 hrjlt] at hgs
        omega
      · simp only
        rw [getD_set_of_ne 0 (fun he => hrq he.symm)]
        rw [getD_set_of_ne 0 (fun he => hrq he.symm)] at hgs
        omega

theorem release_preserves_inv {total : List Nat} {tid rid : Nat}
    {wk : Option Nat} {s : SyncState} {r : Int} {s2 : SyncState}
    (h : releaseOp tid rid wk s = .ok (r, s2)) (hinv : ledgerInv total s) :
    ledgerInv total s2 := by
  obtain ⟨hlen, hll, hrows, hsum⟩ := hinv
  cases wk with
  | none =>
    obtain ⟨-, -, a, row, v, ha, hrow, hv, hvz, hs⟩ := releaseOp_none_ok h
    subst hs
    have hrid : rid < s.available.length := get?_some_lt ha
    have hrowmem : row ∈ s.allocation := List.get?_mem hrow
    have hrjlt : rid < row.length := get?_some_lt hv
    refine ⟨by simpa using hlen, by simpa using hll, ?_, ?_⟩
    · intro row2 hrow2
      simp only [List.length_set]
      rcases List.mem_or_eq_of_mem_set hrow2 with hmem | rfl
      · exact hrows row2 hmem
      · simp only [List.length_set]
        exact hrows row hrowmem
    · intro rr hrr
      simp only [List.length_set] at hrr
      have hgs := colSum_set hrow (row.set rid (v - 1)) rr
      have hvd : row.getD rid 0 = v := getD_of_get? 0 hv
      have had : s.available.getD rid 0 = a := getD_of_get? 0 ha
      have hold := hsum rr hrr
      by_cases hrq : rr = rid
      · subst hrq
        simp only
        rw [getD_set_self 0 hrid]
        rw [getD_set_self 0 hrjlt] at hgs
        omega
      · simp only
        rw [getD_set_of_ne 0 (fun he => hrq he.symm)]
        rw [getD_set_of_ne 0 (fun he => hrq he.symm)] at hgs
        omega
  | some w =>
    obtain ⟨-, -, a, row, v, row2, v2, rowN, vN, ha, hrow, hv, hvz, hrow2,
      hv2, -, -, -, hs⟩ := releaseOp_some_ok h
    subst hs
    have hrowmem : row ∈ s.allocation := List.get?_mem hrow
    have hrjlt : rid < row.length := get?_some_lt hv
    have hrow2mem : row2 ∈ s.allocation.set tid (row.set rid (v - 1)) :=
      List.get?_mem hrow2
    have hrow2len : row2.length = s.available.length := by
      rcases List.mem_or_eq_of_mem_set hrow2mem with hmem | rfl
      · exact hrows row2 hmem
      · simp only [List.length_set]
        exact hrows row hrowmem
    have hrj2lt : rid < row2.length := get?_some_lt hv2
    refine ⟨hlen, hll, ?_, ?_⟩
    · intro row3 hrow3
      rcases List.mem_or_eq_of_mem_set hrow3 with hmem | rfl
      · rcases List.mem_or_eq_of_mem_set hmem with hmem2 | rfl
        · exact hrows row3 hmem2
        · simp only [List.length_set]
          exact hrows row hrowmem
      · simp only [List.length_set]
        exact hrow2len
    · intro rr hrr
      have hgs1 := colSum_set hrow (row.set rid (v - 1)) rr
      have hgs2 := colSum_set hrow2 (row2.set rid (v2 + 1)) rr
      have hvd : row.getD rid 0 = v := getD_of_get? 0 hv
      have hv2d : row2.getD rid 0 = v2 := getD_of_get? 0 hv2
      have hold := hsum rr hrr
      by_cases hrq : rr = rid
      · subst hrq
        simp only
        rw [getD_set_self 0 hrjlt] at hgs1
        rw [getD_set_self 0 hrj2lt] at hgs2
        omega
      · simp only
        rw [getD_set_of_ne 0 (fun he => hrq he.symm)] at hgs1
        rw [getD_set_of_ne 0 (fun he => hrq he.symm)] at hgs2
        omega

theorem create_preserves_inv {total : List Nat} {n : Nat} {s : SyncState}
    (hinv : ledgerInv total s) :
    ledgerInv (totalCreate n s total) (createOp n s).2 := by
  obtain ⟨hlen, hll, hrows, hsum⟩ := hinv
  unfold createOp totalCreate
  cases hf : findFreeSlot s.list with
  | none =>
    simp only
    have hL : ∀ row ∈ s.allocation, row.length = s.available.length := hrows
    refine ⟨by simp [hlen], by simp [hll], ?_, ?_⟩
    · intro row2 hrow2
      simp only [List.length_append, List.length_cons, List.length_nil]
      obtain ⟨row, hmem, rfl⟩ := List.mem_map.mp hrow2
      simp [hL row hmem]
    · intro rr hrr
      simp only [List.length_append, List.length_cons, List.length_nil] at hrr
      by_cases hre : rr = s.available.length
      · subst hre
        rw [List.getD_append_right _ _ _ _ (le_refl _)]
        rw [show s.available.length = total.length from hlen.symm] at *
        rw [List.getD_append_right _ _ _ _ (le_refl _)]
        have hz : colSum (s.allocation.map (fun row => row ++ [0]))
            total.length = 0 := by
          apply colSum_map_append_self
          intro row hmem
          rw [hrows row hmem, hlen]
        rw [hz]
        simp
      · have hlt : rr < s.available.length := by omega
        rw [List.getD_append _ _ _ _ hlt, List.getD_append _ _ _ _ (hlen ▸ hlt)]
        rw [colSum_map_append_lt (fun row hmem => (hrows row hmem) ▸ hlt)]
        exact hsum rr hlt
  | some id =>
    simp only
    have hid : id < s.list.length := findFreeSlot_lt hf
    have hida : id ≤ s.available.length := le_of_lt (lt_of_lt_of_le hid hll)
    have hidr : ∀ row ∈ s.allocation, id ≤ row.length := by
      intro row hmem
      rw [hrows row hmem]
      exact hida
    have hidt : id ≤ total.length := hlen ▸ hida
    refine ⟨by simp [length_insertAt, hlen], ?_, ?_, ?_⟩
    · simp only [List.length_set, length_insertAt]
      omega
    · intro row2 hrow2
      simp only [length_insertAt]
      obtain ⟨row, hmem, rfl⟩ := List.mem_map.mp hrow2
      simp [length_insertAt, hrows row hmem]
    · intro rr hrr
      simp only [length_insertAt] at hrr
      rcases Nat.lt_trichotomy rr id with hlt | heq | hgt
      · rw [getD_insertAt_lt hida hlt, getD_insertAt_lt hidt hlt,
          colSum_map_insertAt_lt hidr hlt]
        exact hsum rr (by omega)
      · subst heq
        rw [getD_insertAt_self hida, getD_insertAt_self hidt,
          colSum_map_insertAt_self hidr]
        omega
      · obtain ⟨m, rfl⟩ : ∃ m, rr = m + 1 := ⟨rr - 1, by omega⟩
        rw [getD_insertAt_succ hida (by omega), getD_insertAt_succ hidt (by omega),
          colSum_map_insertAt_succ hidr (by omega)]
        exact hsum m (by omega)

/--
C2: the safety-relevant ledger invariant — for every resource id `r`,
`available[r] + Σ_t allocation[t][r] = total_instances[r]`, with
`total_instances` the ghost per-resource instance-count vector (1 per
mutex create, `res_count` per semaphore create, tracked by
`totalCreate`) — is preserved by `sys_mutex_create`, `sys_mutex_lock`,
`sys_mutex_unlock`, `sys_semaphore_create`, `sys_semaphore_down` and
`sys_semaphore_up`, at every quiescent point (i.e. at each `.ok` return
of the embedded ledger transition, the in-flight update being inside).
-/
theorem ledger_column_invariant_preserved (total : List Nat) (s : SyncState)
    (hinv : ledgerInv total s) :
    ledgerInv (totalCreate 1 s total) (sys_mutex_create s).2 ∧
    (∀ n, ledgerInv (totalCreate n s total) (sys_semaphore_create n s).2) ∧
    (∀ tid rid r b s2, sys_mutex_lock tid rid s = .ok (r, b, s2) →
      ledgerInv total s2) ∧
    (∀ tid rid r b s2, sys_semaphore_down tid rid s = .ok (r, b, s2) →
      ledgerInv total s2) ∧
    (∀ tid rid wk r s2, sys_mutex_unlock tid rid wk s = .ok (r, s2) →
      ledgerInv total s2) ∧
    (∀ tid rid wk r s2, sys_semaphore_up tid rid wk s = .ok (r, s2) →
      ledgerInv total s2) :=
  ⟨create_preserves_inv hinv, fun _ => create_preserves_inv hinv,
    fun _ _ _ _ _ h => acquire_preserves_inv h hinv,
    fun _ _ _ _ _ h => acquire_preserves_inv h hinv,
    fun _ _ _ _ _ h => release_preserves_inv h hinv,
    fun _ _ _ _ _ h => release_preserves_inv h hinv⟩

/--
C2 witness: one mutex, one thread holding nothing; the invariant holds
before and, via the theorem applied to the grant path of
`sys_mutex_lock(0)`, after.
-/
theorem ledger_column_invariant_witness :
    ledgerInv [1] ⟨[some ()], [1], [[0]], [[0]], false⟩ ∧
    ledgerInv [1] ⟨[some ()], [0], [[1]], [[0]], false⟩ := by
  refine ⟨by decide, ?_⟩
  exact (ledger_column_invariant_preserved [1]
    ⟨[some ()], [1], [[0]], [[0]], false⟩ (by decide)).2.2.1 0 0 0 true
    ⟨[some ()], [0], [[1]], [[0]], false⟩ rfl

/-! ##  C8 (amended): invalid handles abort  -/

theorem badSlot_bind {l : List (Option Unit)} {i : Nat} (h : badSlot l i)
    {β : Type} (f : Unit → Except Panic β) :
    ∃ p, (getE l i >>= fun slot => unwrapE slot >>= fun u => f u) = .error p := by
  rcases h with hlen | hnone
  · refine ⟨.indexOutOfBounds, ?_⟩
    have hg : getE (α := Option Unit) l i = .error .indexOutOfBounds := by
      unfold getE
      rw [List.get?_eq_none.mpr hlen]
    rw [hg, bindE_err]
  · have hi : i < l.length := by
      by_contra hge
      rw [List.getD_eq_default _ _ (by omega)] at hnone
      cases hnone
    have hg : l.get? i = some none := by
      rw [List.get?_eq_get hi]
      have h2 := List.getD_eq_getElem l (some ()) hi
      rw [hnone] at h2
      exact congrArg some h2.symm
    refine ⟨.unwrapNone, ?_⟩
    rw [getE_ok.mpr hg, bindE_ok]
    rw [show unwrapE (α := Unit) none = .error .unwrapNone from rfl, bindE_err]

/--
C8 (amended): calling `sys_mutex_lock`, `sys_mutex_unlock`,
`sys_semaphore_down`, `sys_semaphore_up`, `sys_condvar_signal` or
`sys_condvar_wait` with a resource id outside the corresponding table's
bounds, or with an id whose slot is empty, reaches the unchecked
`table[id]` index or the `as_ref().unwrap()` and aborts with a kernel
panic — it does not return an error value to the caller.
-/
theorem invalid_handle_aborts (s : SyncState) (tid rid : Nat) (wk : Option Nat)
    (cl ml : List (Option Unit)) (cid mid : Nat) :
    (badSlot s.list rid →
      (∃ p, sys_mutex_lock tid rid s = .error p) ∧
      (∃ p, sys_semaphore_down tid rid s = .error p) ∧
      (∃ p, sys_mutex_unlock tid rid wk s = .error p) ∧
      (∃ p, sys_semaphore_up tid rid wk s = .error p)) ∧
    (badSlot cl cid →
      (∃ p, sys_condvar_signal cid cl = .error p) ∧
      (∃ p, sys_condvar_wait cid mid cl ml = .error p)) ∧
    (badSlot ml mid → ∃ p, sys_condvar_wait cid mid cl ml = .error p) := by
  refine ⟨?_, ?_, ?_⟩
  · intro h
    have hacq : ∃ p, acquireOp tid rid s = .error p := by
      unfold acquireOp
      exact badSlot_bind h _
    have hrel : ∃ p, releaseOp tid rid wk s = .error p := by
      unfold releaseOp
      exact badSlot_bind h _
    exact ⟨hacq, hacq, hrel, hrel⟩
  · intro h
    have hsig : ∃ p, sys_condvar_signal cid cl = .error p := by
      unfold sys_condvar_signal
      exact badSlot_bind h _
    have hwait : ∃ p, sys_condvar_wait cid mid cl ml = .error p := by
      unfold sys_condvar_wait
      exact badSlot_bind h _
    exact ⟨hsig, hwait⟩
  · intro h
    unfold sys_condvar_wait
    rcases exceptCases (getE (α := Option Unit) cl cid) with ⟨p, hg⟩ | ⟨cslot, hg⟩
    · exact ⟨p, by rw [hg, bindE_err]⟩
    rcases exceptCases (unwrapE cslot) with ⟨p, hu⟩ | ⟨u, hu⟩
    · exact ⟨p, by rw [hg, bindE_ok, hu, bindE_err]⟩
    obtain ⟨p, hp⟩ := badSlot_bind h (fun _ => (pure 0 : Except Panic Int))
    refine ⟨p, ?_⟩
    rw [hg, bindE_ok, hu, bindE_ok]
    exact hp

/--
C8 witness: an empty mutex table aborts `sys_mutex_lock(0)`, and an
empty mutex table aborts `sys_condvar_wait(0, 0)` even with a valid
condvar.
-/
theorem invalid_handle_aborts_witness :
    (∃ p, sys_mutex_lock 0 0 ⟨[], [], [], [], false⟩ = .error p) ∧
    ∃ p, sys_condvar_wait 0 0 [some ()] [] = .error p := by
  have h := invalid_handle_aborts ⟨[], [], [], [], false⟩ 0 0 none [some ()] [] 0 0
  exact ⟨(h.1 (Or.inl (by decide))).1, h.2.2 (Or.inl (by decide))⟩

/-! ##  C4: fetch picks the first minimum-stride task  -/

theorem getD_mem {l : List TCB} {i : Nat} (h : i < l.length) :
    l.getD i dTCB ∈ l := by
  rw [List.getD_eq_getElem _ _ h]
  exact List.getElem_mem h

/--
Full characterization of the selection scan from accumulator
`(minS, res)`: either no remaining task beats `minS` and the scan keeps
`res`, or it returns the position of the first task attaining the
minimum stride of the remainder, which beats `minS`.
-/
theorem fetchScanAux_spec (rest : List TCB) :
    ∀ (idx minS res : Nat),
      (fetchScanAux rest idx minS res = res ∧ ∀ t ∈ rest, minS ≤ t.stride) ∨
      (∃ j, j < rest.length ∧ fetchScanAux rest idx minS res = idx + j ∧
        (rest.getD j dTCB).stride < minS ∧
        (∀ i, i < rest.length →
          (rest.getD j dTCB).stride ≤ (rest.getD i dTCB).stride) ∧
        (∀ i, i < j →
          (rest.getD j dTCB).stride < (rest.getD i dTCB).stride)) := by
  induction rest with
  | nil =>
    intro idx minS res
    exact .inl ⟨rfl, by simp⟩
  | cons t rest ih =>
    intro idx minS res
    by_cases ht : t.stride < minS
    · have hstep : fetchScanAux (t :: rest) idx minS res =
          fetchScanAux rest (idx + 1) t.stride idx := by
        simp [fetchScanAux, ht]
      rcases ih (idx + 1) t.stride idx with ⟨heq, hall⟩ | ⟨j, hj, heq, hlt, hmin, hstrict⟩
      · refine .inr ⟨0, by simp, ?_, ?_, ?_, ?_⟩
        · rw [hstep, heq]
          omega
        · simpa only [List.getD_cons_zero] using ht
        · intro i hi
          cases i with
          | zero => exact le_refl _
          | succ m =>
            have hm : m < rest.length := by simpa using hi
            simp only [List.getD_cons_zero, List.getD_cons_succ]
            exact hall _ (getD_mem hm)
        · intro i hi
          omega
      · refine .inr ⟨j + 1, by simpa using hj, ?_, ?_, ?_, ?_⟩
        · rw [hstep, heq]
          omega
        · simp only [List.getD_cons_succ]
          exact lt_trans hlt ht
        · intro i hi
          cases i with
          | zero =>
            simp only [List.getD_cons_zero, List.getD_cons_succ]
            exact le_of_lt hlt
          | succ m =>
            have hm : m < rest.length := by simpa using hi
            simp only [List.getD_cons_succ]
            exact hmin m hm
        · intro i hi
          cases i with
          | zero =>
            simp only [List.getD_cons_zero, List.getD_cons_succ]
            exact hlt
          | succ m =>
            simp only [List.getD_cons_succ]
            exact hstrict m (by omega)
    · have hstep : fetchScanAux (t :: rest) idx minS res =
          fetchScanAux rest (idx + 1) minS res := by
        simp [fetchScanAux, ht]
      rcases ih (idx + 1) minS res with ⟨heq, hall⟩ | ⟨j, hj, heq, hlt, hmin, hstrict⟩
      · refine .inl ⟨by rw [hstep, heq], ?_⟩
        intro u hu
        rcases List.mem_cons.mp hu with rfl | hmem
        · omega
        · exact hall u hmem
      · refine .inr ⟨j + 1, by simpa using hj, ?_, ?_, ?_, ?_⟩
        · rw [hstep, heq]
          omega
        · simp only [List.getD_cons_succ]
          exact hlt
        · intro i hi
          cases i with
          | zero =>
            simp only [List.getD_cons_zero, List.getD_cons_succ]
            omega
          | succ m =>
            have hm : m < rest.length := by simpa using hi
            simp only [List.getD_cons_succ]
            exact hmin m hm
        · intro i hi
          cases i with
          | zero =>
            simp only [List.getD_cons_zero, List.getD_cons_succ]
            omega
          | succ m =>
            simp only [List.getD_cons_succ]
            exact hstrict m (by omega)

theorem eraseIdx_set (l : List TCB) (i : Nat) (x : TCB) :
    (l.set i x).eraseIdx i = l.eraseIdx i := by
  induction l generalizing i with
  | nil => cases i <;> rfl
  | cons h t ih =>
    cases i with
    | zero => rfl
    | succ n => simp [List.eraseIdx, ih]

/--
C4: on every non-empty ready queue (with stride values in `usize`
range), `fetch` removes and returns the task at position `fetchScan q`,
which carries the minimum stride, ties broken in favour of the earliest
position (all strictly earlier tasks have strictly greater stride), and
the returned task is the chosen one with `update_stride` applied (its
stride incremented by its pass `B / priority`) before removal; the
remaining queue is exactly the original with that position removed,
other tasks in their original order.  `update_stride` and `BIG_STRIDE`
(`B`) are modelled from the spec, their source file not being provided.
-/
theorem fetch_selects_first_min_stride (B : Nat) (q : List TCB) (hne : q ≠ [])
    (hbound : ∀ t ∈ q, t.stride ≤ USIZE_MAX) :
    fetchScan q < q.length ∧
    fetch B q = .ok (update_stride B (q.getD (fetchScan q) dTCB),
      q.eraseIdx (fetchScan q)) ∧
    (∀ i, i < q.length →
      (q.getD (fetchScan q) dTCB).stride ≤ (q.getD i dTCB).stride) ∧
    (∀ i, i < fetchScan q →
      (q.getD (fetchScan q) dTCB).stride < (q.getD i dTCB).stride) := by
  have hlen0 : 0 < q.length := List.length_pos.mpr hne
  have hmain : fetchScan q < q.length ∧
      (∀ i, i < q.length →
        (q.getD (fetchScan q) dTCB).stride ≤ (q.getD i dTCB).stride) ∧
      (∀ i, i < fetchScan q →
        (q.getD (fetchScan q) dTCB).stride < (q.getD i dTCB).stride) := by
    rcases fetchScanAux_spec q 0 USIZE_MAX 0 with ⟨heq, hall⟩ | ⟨j, hj, heq, hlt, hmin, hstrict⟩
    · have hscan : fetchScan q = 0 := heq
      rw [hscan]
      refine ⟨hlen0, ?_, ?_⟩
      · intro i hi
        have h0 : (q.getD 0 dTCB).stride ≤ USIZE_MAX := hbound _ (getD_mem hlen0)
        have h1 : USIZE_MAX ≤ (q.getD i dTCB).stride := hall _ (getD_mem hi)
        omega
      · intro i hi
        omega
    · have hscan : fetchScan q = j := by
        unfold fetchScan
        rw [heq]
        omega
      rw [hscan]
      exact ⟨hj, hmin, hstrict⟩
  obtain ⟨hm, hmin, hstrict⟩ := hmain
  refine ⟨hm, ?_, hmin, hstrict⟩
  have hget : q.get? (fetchScan q) = some (q.getD (fetchScan q) dTCB) := by
    rw [List.get?_eq_get hm, List.getD_eq_getElem _ _ hm]
    rfl
  unfold fetch
  simp only [hget]
  rw [eraseIdx_set]

/--
C4 witness: on a two-task queue with strides 5 and 3 (priority 2,
`BIG_STRIDE = 10`), `fetch` picks the second task, bumps its stride to
3 + 10/2 = 8, and leaves the first task queued.
-/
theorem fetch_selects_first_min_stride_witness :
    fetch 10 [⟨0, 5, 2⟩, ⟨1, 3, 2⟩] = .ok (⟨1, 8, 2⟩, [⟨0, 5, 2⟩]) := by
  have h := fetch_selects_first_min_stride 10 [⟨0, 5, 2⟩, ⟨1, 3, 2⟩]
    (by decide) (by decide)
  rw [h.2.1]
  rfl

/-! ##  C9: sys_waitpid  -/

theorem getD_mem_child {l : List ChildProc} {i : Nat} (h : i < l.length) :
    l.getD i dChild ∈ l := by
  rw [List.getD_eq_getElem _ _ h]
  exact List.getElem_mem h

theorem findZombie_none_iff (pid : Int) (l : List ChildProc) (i : Nat) :
    findZombie pid l i = none ↔
      ∀ c ∈ l, (c.zombie && pidMatches pid c) = false := by
  induction l generalizing i with
  | nil => simp [findZombie]
  | cons c rest ih =>
    simp only [findZombie]
    by_cases hc : (c.zombie && pidMatches pid c) = true
    · rw [if_pos hc]
      constructor
      · intro h
        cases h
      · intro h
        have := h c (by simp)
        rw [hc] at this
        cases this
    · rw [if_neg hc]
      rw [ih (i + 1)]
      constructor
      · intro h u hu
        rcases List.mem_cons.mp hu with rfl | hmem
        · exact Bool.not_eq_true _ ▸ hc
        · exact h u hmem
      · intro h u hu
        exact h u (by simp [hu])

theorem findZombie_first {pid : Int} {l : List ChildProc} {k : Nat}
    (hk : k < l.length)
    (hc : ((l.getD k dChild).zombie && pidMatches pid (l.getD k dChild)) = true)
    (hfirst : ∀ m, m < k →
      ((l.getD m dChild).zombie && pidMatches pid (l.getD m dChild)) = false) :
    ∀ i, findZombie pid l i = some (i + k, l.getD k dChild) := by
  induction l generalizing k with
  | nil => simp at hk
  | cons c rest ih =>
    intro i
    cases k with
    | zero =>
      simp only [List.getD_cons_zero] at hc
      simp [findZombie, hc]
    | succ m =>
      have hc0 : (c.zombie && pidMatches pid c) = false := by
        have := hfirst 0 (by omega)
        simpa only [List.getD_cons_zero] using this
      simp only [findZombie, hc0]
      rw [if_neg (by simp [hc0])]
      simp only [List.getD_cons_succ] at hc ⊢
      have := ih (by simpa using hk) hc
        (fun m2 hm2 => by
          have := hfirst (m2 + 1) (by omega)
          simpa only [List.getD_cons_succ] using this) (i + 1)
      rw [this]
      have harith : i + 1 + m = i + (m + 1) := by omega
      rw [harith]

/--
C9: `sys_waitpid(pid, exit_code_ptr)` returns -1 and changes nothing
when no child matches `pid` (`pid = -1` matches any child); returns -2
and changes nothing when some child matches but no matching child is a
zombie; otherwise removes the first matching zombie child, writes its
exit code through `exit_code_ptr` (the third component models the
written value) and returns that child's pid.
-/
theorem waitpid_cases (pid : Int) (children : List ChildProc) :
    ((∀ c ∈ children, pidMatches pid c = false) →
      sys_waitpid pid children = (-1, children, none)) ∧
    ((∃ c ∈ children, pidMatches pid c = true) →
     (∀ c ∈ children, (c.zombie && pidMatches pid c) = false) →
      sys_waitpid pid children = (-2, children, none)) ∧
    (∀ k, k < children.length →
      ((children.getD k dChild).zombie &&
        pidMatches pid (children.getD k dChild)) = true →
      (∀ m, m < k → ((children.getD m dChild).zombie &&
        pidMatches pid (children.getD m dChild)) = false) →
      sys_waitpid pid children =
        (Int.ofNat (children.getD k dChild).pid, children.eraseIdx k,
         some (children.getD k dChild).exit_code)) := by
  refine ⟨?_, ?_, ?_⟩
  · intro h
    have hany : children.any (fun p => pidMatches pid p) = false := by
      rw [List.any_eq_false]
      intro c hc
      simp [h c hc]
    unfold sys_waitpid
    rw [hany]
    rfl
  · intro hex hall
    obtain ⟨c, hc, hmc⟩ := hex
    have hany : children.any (fun p => pidMatches pid p) = true :=
      List.any_eq_true.mpr ⟨c, hc, hmc⟩
    unfold sys_waitpid
    rw [hany]
    rw [(findZombie_none_iff pid children 0).mpr hall]
    rfl
  · intro k hk hck hfirst
    have hmatch : pidMatches pid (children.getD k dChild) = true :=
      (Bool.and_eq_true _ _ |>.mp hck).2
    have hany : children.any (fun p => pidMatches pid p) = true :=
      List.any_eq_true.mpr ⟨children.getD k dChild, getD_mem_child hk, hmatch⟩
    unfold sys_waitpid
    rw [hany]
    rw [findZombie_first hk hck hfirst 0]
    simp

/--
C9 witness: a single zombie child with pid 5 and exit code 7, waited on
with `pid = -1`, is removed; 5 is returned and 7 written.
-/
theorem waitpid_cases_witness :
    sys_waitpid (-1) [⟨5, true, 7⟩] = (5, [], some 7) := by
  have h := (waitpid_cases (-1) [⟨5, true, 7⟩]).2.2 0 (by decide) (by decide)
    (fun m hm => absurd hm (by omega))
  rw [h]
  rfl

end Rcore
